import Mathlib

/-!
Verification of the optlib generalized Black-Scholes pricing module
(`optlib/gbs.py`) against its natural-language specification.

The Python module works on IEEE doubles; the shallow embedding below uses
real numbers, translating each arithmetic expression of the source
literally.  `scipy.stats.norm.cdf` / `norm.pdf` are embedded as the
standard normal cumulative distribution function and density defined by
their integrals, and `scipy.stats.mvn.mvndst` (called with both upper
integration limits finite) as the cumulative bivariate normal integral.
Python exceptions (`GBS_InputError`, `GBS_CalculationError`) become
`Except` values; `while` loops bounded by `max_steps` become fueled
structural recursion.
-/

set_option autoImplicit false

namespace Optlib

noncomputable section

open MeasureTheory

/-! ### The limits table (`_GBS_Limits`) -/

namespace GBS_Limits

def MAX32 : ℝ := 2147483248.0

def MIN_T : ℝ := 1.0 / 1000.0

def MIN_X : ℝ := 0.01

def MIN_FS : ℝ := 0.01

def MIN_V : ℝ := 0.005

def MAX_T : ℝ := 100

def MAX_X : ℝ := MAX32

def MAX_FS : ℝ := MAX32

def MIN_TA : ℝ := 0

def MIN_b : ℝ := -1

def MIN_r : ℝ := -1

def MAX_b : ℝ := 1

def MAX_r : ℝ := 1

def MAX_V : ℝ := 1

end GBS_Limits

/-! ### Errors

`GBS_InputError` messages in the source interpolate the offending value
and the acceptable range into a string; we keep those data as fields.
`GBS_CalculationError` reports best guess, price difference and required
precision. -/

inductive GBSError where
  | invalidOptionType (option_type : String)
  | inputError (field : String) (value lo hi : ℝ)
  | calculationError (bestGuess priceDiff precision : ℝ)

/-- The six-tuple `(value, delta, gamma, theta, vega, rho)` returned by
every pricing function. -/
structure ValRes where
  value : ℝ
  delta : ℝ
  gamma : ℝ
  theta : ℝ
  vega : ℝ
  rho : ℝ

/-! ### Normal distribution utilities (`scipy.stats.norm`, `scipy.stats.mvn`) -/

/-- Standard normal probability density (`norm.pdf`). -/
def normalPdf (z : ℝ) : ℝ := Real.exp (-z ^ 2 / 2) / Real.sqrt (2 * Real.pi)

/-- Standard normal cumulative distribution function (`norm.cdf`). -/
def normalCdf (z : ℝ) : ℝ := ∫ u in Set.Iic z, normalPdf u

/-- Standard bivariate normal density with correlation `rho`. -/
def bivariatePdf (rho x y : ℝ) : ℝ :=
  Real.exp (-(x ^ 2 - 2 * rho * x * y + y ^ 2) / (2 * (1 - rho ^ 2))) /
    (2 * Real.pi * Real.sqrt (1 - rho ^ 2))

/-- Cumulative bivariate normal distribution (`_cbnd`): the source calls
`mvn.mvndst` with both upper limits finite, i.e. `P(X <= a, Y <= b)`. -/
def cbnd (a b rho : ℝ) : ℝ :=
  ∫ x in Set.Iic a, ∫ y in Set.Iic b, bivariatePdf rho x y

/-! ### Input validation (`_test_option_type`, `_gbs_test_inputs`) -/

/-- `_test_option_type`. -/
def test_option_type (option_type : String) : Except GBSError Unit :=
  if option_type ≠ "c" ∧ option_type ≠ "p" then
    .error (.invalidOptionType option_type)
  else
    .ok ()

open GBS_Limits in
/-- `_gbs_test_inputs`: sequential range checks, each raising
`GBS_InputError`, in source order (type, X, FS, T, b, r, V). -/
def gbs_test_inputs (option_type : String) (fs x t r b v : ℝ) :
    Except GBSError Unit :=
  match test_option_type option_type with
  | .error e => .error e
  | .ok _ =>
    if x < MIN_X ∨ x > MAX_X then .error (.inputError "X" x MIN_X MAX_X)
    else if fs < MIN_FS ∨ fs > MAX_FS then .error (.inputError "FS" fs MIN_FS MAX_FS)
    else if t < MIN_T ∨ t > MAX_T then .error (.inputError "T" t MIN_T MAX_T)
    else if b < MIN_b ∨ b > MAX_b then .error (.inputError "b" b MIN_b MAX_b)
    else if r < MIN_r ∨ r > MAX_r then .error (.inputError "r" r MIN_r MAX_r)
    else if v < MIN_V ∨ v > MAX_V then .error (.inputError "V" v MIN_V MAX_V)
    else .ok ()

open GBS_Limits in
/-- The validated domain, as one predicate: exactly the conjunction of the
conditions `_gbs_test_inputs` does not reject. -/
def ValidInputs (option_type : String) (fs x t r b v : ℝ) : Prop :=
  (option_type = "c" ∨ option_type = "p") ∧
    (MIN_X ≤ x ∧ x ≤ MAX_X) ∧ (MIN_FS ≤ fs ∧ fs ≤ MAX_FS) ∧
    (MIN_T ≤ t ∧ t ≤ MAX_T) ∧ (MIN_b ≤ b ∧ b ≤ MAX_b) ∧
    (MIN_r ≤ r ∧ r ≤ MAX_r) ∧ (MIN_V ≤ v ∧ v ≤ MAX_V)

/-! ### European kernel (`_gbs`) -/

/-- The intermediate `d1` of `_gbs`. -/
def gbs_d1 (fs x t b v : ℝ) : ℝ :=
  (Real.log (fs / x) + (b + v * v / 2) * t) / (v * Real.sqrt t)

/-- The intermediate `d2 = d1 - v * sqrt t` of `_gbs`. -/
def gbs_d2 (fs x t b v : ℝ) : ℝ := gbs_d1 fs x t b v - v * Real.sqrt t

/-- The tuple `_gbs` builds after validation has passed (the body of
`_gbs` below the `_gbs_test_inputs` call, both branches). -/
def gbsRes (option_type : String) (fs x t r b v : ℝ) : ValRes :=
  let t__sqrt := Real.sqrt t
  let d1 := gbs_d1 fs x t b v
  let d2 := gbs_d2 fs x t b v
  if option_type = "c" then
    { value := fs * Real.exp ((b - r) * t) * normalCdf d1 -
        x * Real.exp (-r * t) * normalCdf d2
      delta := Real.exp ((b - r) * t) * normalCdf d1
      gamma := Real.exp ((b - r) * t) * normalPdf d1 / (fs * v * t__sqrt)
      theta := -(fs * v * Real.exp ((b - r) * t) * normalPdf d1) / (2 * t__sqrt) -
        (b - r) * fs * Real.exp ((b - r) * t) * normalCdf d1 -
        r * x * Real.exp (-r * t) * normalCdf d2
      vega := Real.exp ((b - r) * t) * fs * t__sqrt * normalPdf d1
      rho := x * t * Real.exp (-r * t) * normalCdf d2 }
  else
    { value := x * Real.exp (-r * t) * normalCdf (-d2) -
        fs * Real.exp ((b - r) * t) * normalCdf (-d1)
      delta := -Real.exp ((b - r) * t) * normalCdf (-d1)
      gamma := Real.exp ((b - r) * t) * normalPdf d1 / (fs * v * t__sqrt)
      theta := -(fs * v * Real.exp ((b - r) * t) * normalPdf d1) / (2 * t__sqrt) +
        (b - r) * fs * Real.exp ((b - r) * t) * normalCdf (-d1) +
        r * x * Real.exp (-r * t) * normalCdf (-d2)
      vega := Real.exp ((b - r) * t) * fs * t__sqrt * normalPdf d1
      rho := -x * t * Real.exp (-r * t) * normalCdf (-d2) }

/-- `_gbs`: validate, then price. -/
def gbs (option_type : String) (fs x t r b v : ℝ) : Except GBSError ValRes :=
  match gbs_test_inputs option_type fs x t r b v with
  | .error e => .error e
  | .ok _ => .ok (gbsRes option_type fs x t r b v)

/-! ### American boundary kernel (`_phi`, `_psi`, `_bjerksund_stensland_2002`,
`_american_option`) -/

/-- `_phi`. -/
def phi (fs t gamma h i r b v : ℝ) : ℝ :=
  let d1 := -(Real.log (fs / h) + (b + (gamma - 0.5) * v ^ 2) * t) / (v * Real.sqrt t)
  let d2 := d1 - 2 * Real.log (i / fs) / (v * Real.sqrt t)
  let lambda1 := -r + gamma * b + 0.5 * gamma * (gamma - 1) * v ^ 2
  let kappa := 2 * b / v ^ 2 + (2 * gamma - 1)
  Real.exp (lambda1 * t) * fs ^ gamma *
    (normalCdf d1 - (i / fs) ^ kappa * normalCdf d2)

/-- `_psi`. -/
def psi (fs t2 gamma h i2 i1 t1 r b v : ℝ) : ℝ :=
  let vsqrt_t1 := v * Real.sqrt t1
  let vsqrt_t2 := v * Real.sqrt t2
  let bgamma_t1 := (b + (gamma - 0.5) * v ^ 2) * t1
  let bgamma_t2 := (b + (gamma - 0.5) * v ^ 2) * t2
  let d1 := (Real.log (fs / i1) + bgamma_t1) / vsqrt_t1
  let d3 := (Real.log (fs / i1) - bgamma_t1) / vsqrt_t1
  let d2 := (Real.log (i2 ^ 2 / (fs * i1)) + bgamma_t1) / vsqrt_t1
  let d4 := (Real.log (i2 ^ 2 / (fs * i1)) - bgamma_t1) / vsqrt_t1
  let e1 := (Real.log (fs / h) + bgamma_t2) / vsqrt_t2
  let e2 := (Real.log (i2 ^ 2 / (fs * h)) + bgamma_t2) / vsqrt_t2
  let e3 := (Real.log (i1 ^ 2 / (fs * h)) + bgamma_t2) / vsqrt_t2
  let e4 := (Real.log (fs * i1 ^ 2 / (h * i2 ^ 2)) + bgamma_t2) / vsqrt_t2
  let tau := Real.sqrt (t1 / t2)
  let lambda1 := -r + gamma * b + 0.5 * gamma * (gamma - 1) * v ^ 2
  let kappa := 2 * b / v ^ 2 + (2 * gamma - 1)
  Real.exp (lambda1 * t2) * fs ^ gamma *
    (cbnd (-d1) (-e1) tau - (i2 / fs) ^ kappa * cbnd (-d2) (-e2) tau -
      (i1 / fs) ^ kappa * cbnd (-d3) (-e3) (-tau) +
      (i1 / i2) ^ kappa * cbnd (-d4) (-e4) (-tau))

open GBS_Limits in
/-- `_bjerksund_stensland_2002`: the American call approximation.  It first
prices the European call (also performing the input checks), returns that
tuple unchanged when `b >= r`, and otherwise floors the approximate value
with the European value, keeping the European greeks. -/
def bjerksund_stensland_2002 (fs x t r b v : ℝ) : Except GBSError ValRes :=
  match gbs "c" fs x t r b v with
  | .error e => .error e
  | .ok my_output =>
    let e_value := my_output.value
    if b ≥ r then
      .ok my_output
    else
      let v2 := v ^ 2
      let t1 := 0.5 * (Real.sqrt 5 - 1) * t
      let t2 := t
      let beta_inside := |(b / v2 - 0.5) ^ 2 + 2 * r / v2|
      let beta := (0.5 - b / v2) + Real.sqrt beta_inside
      let b_infinity := beta / (beta - 1) * x
      let b_zero := max x (r / (r - b) * x)
      let h1 := -(b * t1 + 2 * v * Real.sqrt t1) * (x ^ 2 / ((b_infinity - b_zero) * b_zero))
      let h2 := -(b * t2 + 2 * v * Real.sqrt t2) * (x ^ 2 / ((b_infinity - b_zero) * b_zero))
      let i1 := b_zero + (b_infinity - b_zero) * (1 - Real.exp h1)
      let i2 := b_zero + (b_infinity - b_zero) * (1 - Real.exp h2)
      let alpha1 := (i1 - x) * i1 ^ (-beta)
      let alpha2 := (i2 - x) * i2 ^ (-beta)
      let value :=
        if fs ≥ i2 then fs - x
        else
          alpha2 * fs ^ beta - alpha2 * phi fs t1 beta i2 i2 r b v +
            phi fs t1 1 i2 i2 r b v - phi fs t1 1 i1 i2 r b v -
            x * phi fs t1 0 i2 i2 r b v + x * phi fs t1 0 i1 i2 r b v +
            alpha1 * phi fs t1 beta i1 i2 r b v -
            alpha1 * psi fs t2 beta i1 i2 i1 t1 r b v +
            psi fs t2 1 i1 i2 i1 t1 r b v - psi fs t2 1 x i2 i1 t1 r b v -
            x * psi fs t2 0 i1 i2 i1 t1 r b v + x * psi fs t2 0 x i2 i1 t1 r b v
      .ok { my_output with value := max value e_value }

/-- `_american_option`: validate the original arguments, then route calls
directly to the 2002 call pricer, and puts through the put-call
transformation `P(X, FS, T, r, b, V) = C(FS, X, T, -b, r-b, V)` (in the
source: `put__x = fs; put_fs = x; put_b = -b; put_r = r - b`). -/
def american_option (option_type : String) (fs x t r b v : ℝ) :
    Except GBSError ValRes :=
  match gbs_test_inputs option_type fs x t r b v with
  | .error e => .error e
  | .ok _ =>
    if option_type = "c" then
      bjerksund_stensland_2002 fs x t r b v
    else
      bjerksund_stensland_2002 x fs t (r - b) (-b) v

/-! ### Implied volatility solvers (`_approx_implied_vol`,
`_newton_implied_vol`, `_bisection_implied_vol`) -/

/-- The type of the `val_fn` argument of the solvers: any of the pricing
functions of the module. -/
abbrev Pricer : Type :=
  String → ℝ → ℝ → ℝ → ℝ → ℝ → ℝ → Except GBSError ValRes

/-- `_approx_implied_vol` (Brenner and Subrahmanyam seed).  The source
reuses the name `b` for `cp - payoff / 2`, shadowing the cost of carry;
here that local is called `b2`. -/
def approx_implied_vol (option_type : String) (fs x t r b cp : ℝ) :
    Except GBSError ℝ :=
  match test_option_type option_type with
  | .error e => .error e
  | .ok _ =>
    let ebrt := Real.exp ((b - r) * t)
    let ert := Real.exp (-r * t)
    let a := Real.sqrt (2 * Real.pi) / (fs * ebrt + x * ert)
    let payoff := if option_type = "c" then fs * ebrt - x * ert else x * ert - fs * ebrt
    let b2 := cp - payoff / 2
    let c := payoff ^ 2 / Real.pi
    .ok (a * (b2 + Real.sqrt (b2 ^ 2 + c)) / Real.sqrt t)

open GBS_Limits in
/-- The `while` loop of `_newton_implied_vol`, fueled by the remaining
steps (`max_steps - countr`).  State: current `v`, last computed `value`
and `vega`, and `min_diff`; returns `(v, value)` at loop exit.  A `break`
on an out-of-range update leaves `value` stale, as in the source. -/
def newton_loop (val_fn : Pricer) (option_type : String)
    (fs x t r b cp precision : ℝ) :
    ℕ → ℝ → ℝ → ℝ → ℝ → Except GBSError (ℝ × ℝ)
  | 0, v, value, _, _ => .ok (v, value)
  | fuel + 1, v, value, vega, min_diff =>
    if precision ≤ |cp - value| ∧ |cp - value| ≤ min_diff then
      let v1 := v - (value - cp) / vega
      if v1 > MAX_V ∨ v1 < MIN_V then
        .ok (v1, value)
      else
        match val_fn option_type fs x t r b v1 with
        | .error e => .error e
        | .ok res =>
          newton_loop val_fn option_type fs x t r b cp precision fuel
            v1 res.value res.vega (min (|cp - res.value|) min_diff)
    else
      .ok (v, value)

open GBS_Limits in
/-- The seed bracket of `_bisection_implied_vol`: if the analytic estimate
is out of bounds, search the entire allowed vol space, otherwise narrow
to plus or minus 50 percent of the estimate. -/
def bisection_v_low (v_est : ℝ) : ℝ :=
  if v_est ≤ MIN_V ∨ v_est ≥ MAX_V then MIN_V else max MIN_V (v_est * 0.5)

open GBS_Limits in
def bisection_v_high (v_est : ℝ) : ℝ :=
  if v_est ≤ MIN_V ∨ v_est ≥ MAX_V then MAX_V else min MAX_V (v_est * 1.5)

open GBS_Limits in
def bisection_v_mid (v_est : ℝ) : ℝ :=
  if v_est ≤ MIN_V ∨ v_est ≥ MAX_V then (MIN_V + MAX_V) / 2 else v_est

open GBS_Limits in
/-- The `while` loop of `_bisection_implied_vol`, fueled by
`max_steps - current_step`.  State: bracket `(v_low, v_high)`, midpoint
`v_mid` and its price `cp_mid`.  Returns the final `(v_mid, cp_mid)`
together with the unused fuel (`0` exactly when all `max_steps`
iterations ran). -/
def bisection_loop (val_fn : Pricer) (option_type : String)
    (fs x t r b cp precision : ℝ) :
    ℕ → ℝ → ℝ → ℝ → ℝ → Except GBSError (ℝ × ℝ × ℕ)
  | 0, _, _, v_mid, cp_mid => .ok (v_mid, cp_mid, 0)
  | fuel + 1, v_low, v_high, v_mid, cp_mid =>
    if |cp - cp_mid| > precision then
      let v_low1 := if cp_mid < cp then v_mid else v_low
      let v_high1 := if cp_mid < cp then v_high else v_mid
      match val_fn option_type fs x t r b v_low1 with
      | .error e => .error e
      | .ok lowRes =>
        match val_fn option_type fs x t r b v_high1 with
        | .error e => .error e
        | .ok highRes =>
          let vm := v_low1 + (cp - lowRes.value) * (v_high1 - v_low1) /
            (highRes.value - lowRes.value)
          let vm2 := min MAX_V (max MIN_V vm)
          match val_fn option_type fs x t r b vm2 with
          | .error e => .error e
          | .ok midRes =>
            bisection_loop val_fn option_type fs x t r b cp precision fuel
              v_low1 v_high1 vm2 midRes.value
    else
      .ok (v_mid, cp_mid, fuel + 1)

/-- `_bisection_implied_vol`. -/
def bisection_implied_vol (val_fn : Pricer) (option_type : String)
    (fs x t r b cp precision : ℝ) (max_steps : ℕ) : Except GBSError ℝ :=
  match approx_implied_vol option_type fs x t r b cp with
  | .error e => .error e
  | .ok v_est =>
    let v_low := bisection_v_low v_est
    let v_high := bisection_v_high v_est
    let v_mid := bisection_v_mid v_est
    match val_fn option_type fs x t r b v_mid with
    | .error e => .error e
    | .ok midRes =>
      match bisection_loop val_fn option_type fs x t r b cp precision
          max_steps v_low v_high v_mid midRes.value with
      | .error e => .error e
      | .ok (v_mid2, cp_mid2, _) =>
        if |cp - cp_mid2| < precision then .ok v_mid2
        else .error (.calculationError v_mid2 (|cp - cp_mid2|) precision)

open GBS_Limits in
/-- `_newton_implied_vol`.  Note the source parameter order
`(val_fn, option_type, x, fs, t, b, r, cp, precision, max_steps)`. -/
def newton_implied_vol (val_fn : Pricer) (option_type : String)
    (x fs t b r cp precision : ℝ) (max_steps : ℕ) : Except GBSError ℝ :=
  match test_option_type option_type with
  | .error e => .error e
  | .ok _ =>
    match approx_implied_vol option_type fs x t r b cp with
    | .error e => .error e
    | .ok v_est =>
      let v0 := min MAX_V (max MIN_V v_est)
      match val_fn option_type fs x t r b v0 with
      | .error e => .error e
      | .ok res0 =>
        match newton_loop val_fn option_type fs x t r b cp precision
            max_steps v0 res0.value res0.vega (|cp - res0.value|) with
        | .error e => .error e
        | .ok (v, value) =>
          if |cp - value| < precision then .ok v
          else
            bisection_implied_vol val_fn option_type fs x t r b cp
              precision max_steps

/-! ### Public facade functions needed by the claims
(`black_76`, `asian_76`, `kirks_76`) -/

/-- `black_76`: commodity options, cost of carry `b = 0`. -/
def black_76 (option_type : String) (fs x t r v : ℝ) : Except GBSError ValRes :=
  gbs option_type fs x t r 0 v

open GBS_Limits in
/-- `asian_76`: average price options on commodities. -/
def asian_76 (option_type : String) (fs x t t_a r v : ℝ) :
    Except GBSError ValRes :=
  if t_a < MIN_TA ∨ t_a > t then
    .error (.inputError "TA" t_a MIN_TA t)
  else
    let v_a :=
      if t_a = t then v
      else
        let m := (2 * Real.exp (v ^ 2 * t) -
          2 * Real.exp (v ^ 2 * t_a) * (1 + v ^ 2 * (t - t_a))) /
          (v ^ 4 * (t - t_a) ^ 2)
        Real.sqrt (Real.log m / t)
    gbs option_type fs x t r 0 v_a

/-- `kirks_76`: spread options via the Kirk approximation.  The source
returns `(my_values[0] * (f2 + x), 0, 0, 0, 0, 0)`. -/
def kirks_76 (option_type : String) (f1 f2 x t r v1 v2 corr : ℝ) :
    Except GBSError ValRes :=
  let fs := f1 / (f2 + x)
  let f_temp := f2 / (f2 + x)
  let v := Real.sqrt (v1 ^ 2 + (v2 * f_temp) ^ 2 - 2 * corr * v1 * v2 * f_temp)
  match gbs option_type fs 1.0 t r 0 v with
  | .error e => .error e
  | .ok my_values =>
    .ok { value := my_values.value * (f2 + x), delta := 0, gamma := 0,
          theta := 0, vega := 0, rho := 0 }

/-! ## Helper lemmas: validation -/

lemma test_option_type_eq_ok_iff (ty : String) :
    test_option_type ty = .ok () ↔ (ty = "c" ∨ ty = "p") := by
  unfold test_option_type
  by_cases h1 : ty = "c" <;> by_cases h2 : ty = "p" <;> simp [h1, h2]

lemma gbs_test_inputs_eq_ok_iff (ty : String) (fs x t r b v : ℝ) :
    gbs_test_inputs ty fs x t r b v = .ok () ↔ ValidInputs ty fs x t r b v := by
  unfold gbs_test_inputs ValidInputs
  rw [← test_option_type_eq_ok_iff ty]
  cases hty : test_option_type ty with
  | error e => simp [hty]
  | ok u =>
    cases u
    simp only [hty, true_and]
    split_ifs with h1 h2 h3 h4 h5 h6
    · constructor
      · intro hc; simp at hc
      · rintro ⟨⟨hx1, hx2⟩, -, -, -, -, -⟩
        rcases h1 with h | h <;> linarith
    · constructor
      · intro hc; simp at hc
      · rintro ⟨-, ⟨hx1, hx2⟩, -, -, -, -⟩
        rcases h2 with h | h <;> linarith
    · constructor
      · intro hc; simp at hc
      · rintro ⟨-, -, ⟨hx1, hx2⟩, -, -, -⟩
        rcases h3 with h | h <;> linarith
    · constructor
      · intro hc; simp at hc
      · rintro ⟨-, -, -, ⟨hx1, hx2⟩, -, -⟩
        rcases h4 with h | h <;> linarith
    · constructor
      · intro hc; simp at hc
      · rintro ⟨-, -, -, -, ⟨hx1, hx2⟩, -⟩
        rcases h5 with h | h <;> linarith
    · constructor
      · intro hc; simp at hc
      · rintro ⟨-, -, -, -, -, ⟨hx1, hx2⟩⟩
        rcases h6 with h | h <;> linarith
    · push_neg at h1 h2 h3 h4 h5 h6
      simp only [true_iff]
      exact ⟨⟨h1.1, h1.2⟩, ⟨h2.1, h2.2⟩, ⟨h3.1, h3.2⟩, ⟨h4.1, h4.2⟩,
        ⟨h5.1, h5.2⟩, ⟨h6.1, h6.2⟩⟩

lemma gbs_test_inputs_ok_of_valid {ty : String} {fs x t r b v : ℝ}
    (h : ValidInputs ty fs x t r b v) :
    gbs_test_inputs ty fs x t r b v = .ok () :=
  (gbs_test_inputs_eq_ok_iff ty fs x t r b v).mpr h

lemma gbs_eq_of_valid {ty : String} {fs x t r b v : ℝ}
    (h : ValidInputs ty fs x t r b v) :
    gbs ty fs x t r b v = .ok (gbsRes ty fs x t r b v) := by
  unfold gbs
  rw [gbs_test_inputs_ok_of_valid h]

lemma gbs_isOk_iff (ty : String) (fs x t r b v : ℝ) :
    (∃ out, gbs ty fs x t r b v = .ok out) ↔ ValidInputs ty fs x t r b v := by
  constructor
  · rintro ⟨out, hout⟩
    rw [← gbs_test_inputs_eq_ok_iff ty fs x t r b v]
    unfold gbs at hout
    cases hti : gbs_test_inputs ty fs x t r b v with
    | error e => rw [hti] at hout; exact Except.noConfusion hout
    | ok u => cases u; rfl
  · intro h
    exact ⟨_, gbs_eq_of_valid h⟩

/-! ## Helper lemmas: the American pricer -/

lemma bs2002_isOk_iff (fs x t r b v : ℝ) :
    (∃ out, bjerksund_stensland_2002 fs x t r b v = .ok out) ↔
      ValidInputs "c" fs x t r b v := by
  constructor
  · rintro ⟨out, h⟩
    rw [← gbs_isOk_iff]
    unfold bjerksund_stensland_2002 at h
    cases hg : gbs "c" fs x t r b v with
    | error e => rw [hg] at h; simp at h
    | ok o => exact ⟨o, rfl⟩
  · intro hvalid
    cases h2 : bjerksund_stensland_2002 fs x t r b v with
    | ok o => exact ⟨o, rfl⟩
    | error e =>
      unfold bjerksund_stensland_2002 at h2
      rw [gbs_eq_of_valid hvalid] at h2
      split_ifs at h2

/-- Whenever `_bjerksund_stensland_2002` returns, its value is floored by
the European value and its greeks are the European greeks. -/
lemma bs2002_ok_elim {fs x t r b v : ℝ} {res : ValRes}
    (h : bjerksund_stensland_2002 fs x t r b v = .ok res) :
    ∃ out, gbs "c" fs x t r b v = .ok out ∧ out.value ≤ res.value ∧
      res.delta = out.delta ∧ res.gamma = out.gamma ∧ res.theta = out.theta ∧
      res.vega = out.vega ∧ res.rho = out.rho := by
  unfold bjerksund_stensland_2002 at h
  cases hg : gbs "c" fs x t r b v with
  | error e => rw [hg] at h; simp at h
  | ok o =>
    rw [hg] at h
    refine ⟨o, rfl, ?_⟩
    split_ifs at h with hbr
    · rw [Except.ok.injEq] at h
      subst h
      exact ⟨le_refl _, rfl, rfl, rfl, rfl, rfl⟩
    · rw [Except.ok.injEq] at h
      subst h
      exact ⟨le_max_right _ _, rfl, rfl, rfl, rfl, rfl⟩

lemma american_call_eq {fs x t r b v : ℝ} (h : ValidInputs "c" fs x t r b v) :
    american_option "c" fs x t r b v = bjerksund_stensland_2002 fs x t r b v := by
  unfold american_option
  rw [gbs_test_inputs_ok_of_valid h]
  rfl

lemma american_put_eq {fs x t r b v : ℝ} (h : ValidInputs "p" fs x t r b v) :
    american_option "p" fs x t r b v =
      bjerksund_stensland_2002 x fs t (r - b) (-b) v := by
  unfold american_option
  rw [gbs_test_inputs_ok_of_valid h]
  simp

open GBS_Limits in
lemma valid_put_transform {fs x t r b v : ℝ} (h : ValidInputs "p" fs x t r b v)
    (h1 : -1 ≤ r - b) (h2 : r - b ≤ 1) :
    ValidInputs "c" x fs t (r - b) (-b) v := by
  obtain ⟨-, hx, hfs, ht, hb, hr, hv⟩ := h
  unfold ValidInputs MIN_b MAX_b MIN_r MAX_r at *
  refine ⟨Or.inl rfl, hfs, hx, ht, ⟨by linarith [hb.2], by linarith [hb.1]⟩,
    ⟨h1, h2⟩, hv⟩

/-! ## Claim C1 -/

/-- Claim C1 (amended).  For the European kernel `_gbs` the claimed
equivalence holds: it returns a result (raises no error) exactly when every
input lies inside its validated domain.  The same holds for
`_american_option` on calls.  For puts, however, the claimed equivalence
fails: `_american_option` validates the original arguments and then the
call kernel re-validates the put-call-transformed arguments, so a put
succeeds exactly when the original inputs are in domain AND the
transformed rate `r - b` also lies in `[-1, 1]`. -/
theorem claim_C1_inputError_characterization (ty : String) (fs x t r b v : ℝ) :
    ((∃ out, gbs ty fs x t r b v = .ok out) ↔ ValidInputs ty fs x t r b v) ∧
    ((∃ out, american_option "c" fs x t r b v = .ok out) ↔
      ValidInputs "c" fs x t r b v) ∧
    ((∃ out, american_option "p" fs x t r b v = .ok out) ↔
      ValidInputs "p" fs x t r b v ∧ -1 ≤ r - b ∧ r - b ≤ 1) := by
  refine ⟨gbs_isOk_iff ty fs x t r b v, ?_, ?_⟩
  · constructor
    · rintro ⟨out, h⟩
      unfold american_option at h
      cases hti : gbs_test_inputs "c" fs x t r b v with
      | error e => rw [hti] at h; simp at h
      | ok u => cases u; exact (gbs_test_inputs_eq_ok_iff _ _ _ _ _ _ _).mp hti
    · intro hvalid
      rw [american_call_eq hvalid]
      exact (bs2002_isOk_iff fs x t r b v).mpr hvalid
  · constructor
    · rintro ⟨out, h⟩
      have hp : ValidInputs "p" fs x t r b v := by
        rw [← gbs_test_inputs_eq_ok_iff]
        unfold american_option at h
        cases hti : gbs_test_inputs "p" fs x t r b v with
        | error e => rw [hti] at h; simp at h
        | ok u => cases u; rfl
      rw [american_put_eq hp] at h
      have htrans := (bs2002_isOk_iff x fs t (r - b) (-b) v).mp ⟨out, h⟩
      obtain ⟨-, -, -, -, -, hr6, -⟩ := htrans
      exact ⟨hp, hr6.1, hr6.2⟩
    · rintro ⟨hp, h1, h2⟩
      rw [american_put_eq hp]
      exact (bs2002_isOk_iff _ _ _ _ _ _).mpr (valid_put_transform hp h1 h2)

/-- Claim C1 is false as stated at this input: every argument of
`_american_option("p", fs=100, x=100, t=1, r=1, b=-1, v=0.5)` lies inside
its validated domain, yet a `GBS_InputError` is raised (the put transform
produces `r - b = 2`, rejected by the call kernel's validation). -/
theorem claim_C1_counterexample :
    ValidInputs "p" 100 100 1 1 (-1) 0.5 ∧
    american_option "p" 100 100 1 1 (-1) 0.5 =
      .error (.inputError "r" 2 (-1) 1) := by
  have hvalid : ValidInputs "p" (100 : ℝ) 100 1 1 (-1) 0.5 := by
    unfold ValidInputs
    refine ⟨Or.inr rfl, ?_, ?_, ?_, ?_, ?_, ?_⟩ <;>
      norm_num [GBS_Limits.MIN_X, GBS_Limits.MAX_X, GBS_Limits.MIN_FS,
        GBS_Limits.MAX_FS, GBS_Limits.MIN_T, GBS_Limits.MAX_T,
        GBS_Limits.MIN_b, GBS_Limits.MAX_b, GBS_Limits.MIN_r,
        GBS_Limits.MAX_r, GBS_Limits.MIN_V, GBS_Limits.MAX_V,
        GBS_Limits.MAX32]
  refine ⟨hvalid, ?_⟩
  rw [american_put_eq hvalid]
  have hto : test_option_type "c" = .ok () :=
    (test_option_type_eq_ok_iff "c").mpr (Or.inl rfl)
  have hg : gbs "c" (100 : ℝ) 100 1 (1 - (-1)) (-(-1)) 0.5 =
      .error (.inputError "r" (1 - (-1)) GBS_Limits.MIN_r GBS_Limits.MAX_r) := by
    unfold gbs gbs_test_inputs
    rw [hto]
    norm_num [GBS_Limits.MIN_X, GBS_Limits.MAX_X, GBS_Limits.MIN_FS,
      GBS_Limits.MAX_FS, GBS_Limits.MIN_T, GBS_Limits.MAX_T,
      GBS_Limits.MIN_b, GBS_Limits.MAX_b, GBS_Limits.MIN_r,
      GBS_Limits.MAX_r, GBS_Limits.MAX32]
  unfold bjerksund_stensland_2002
  rw [hg]
  norm_num [GBS_Limits.MIN_r, GBS_Limits.MAX_r]

/-- Numeric restatement of `ValidInputs` with the limits unfolded, for
instantiating theorems at concrete inputs. -/
lemma validInputs_iff (ty : String) (fs x t r b v : ℝ) :
    ValidInputs ty fs x t r b v ↔
      ((ty = "c" ∨ ty = "p") ∧ (0.01 ≤ x ∧ x ≤ 2147483248) ∧
        (0.01 ≤ fs ∧ fs ≤ 2147483248) ∧ (0.001 ≤ t ∧ t ≤ 100) ∧
        (-1 ≤ b ∧ b ≤ 1) ∧ (-1 ≤ r ∧ r ≤ 1) ∧ (0.005 ≤ v ∧ v ≤ 1)) := by
  unfold ValidInputs GBS_Limits.MIN_X GBS_Limits.MAX_X GBS_Limits.MIN_FS
    GBS_Limits.MAX_FS GBS_Limits.MIN_T GBS_Limits.MAX_T GBS_Limits.MIN_b
    GBS_Limits.MAX_b GBS_Limits.MIN_r GBS_Limits.MAX_r GBS_Limits.MIN_V
    GBS_Limits.MAX_V GBS_Limits.MAX32
  norm_num

/-! ## Claim C2 -/

/-- Claim C2: for every valid call input with `b >= r`, the American call
pricer (`_bjerksund_stensland_2002`, and `_american_option` routing to it)
returns exactly the six-tuple of the European kernel `_gbs` on the same
arguments. -/
theorem claim_C2_american_call_delegates (fs x t r b v : ℝ)
    (hvalid : ValidInputs "c" fs x t r b v) (hbr : b ≥ r) :
    american_option "c" fs x t r b v = gbs "c" fs x t r b v ∧
    bjerksund_stensland_2002 fs x t r b v = gbs "c" fs x t r b v := by
  have hb : bjerksund_stensland_2002 fs x t r b v = gbs "c" fs x t r b v := by
    unfold bjerksund_stensland_2002
    rw [gbs_eq_of_valid hvalid]
    dsimp only
    rw [if_pos hbr]
  exact ⟨(american_call_eq hvalid).trans hb, hb⟩

/-- Witness for C2 at `fs = 100, x = 95, t = 1, r = 0, b = 0, v = 0.5`. -/
theorem claim_C2_witness :
    american_option "c" 100 95 1 0 0 0.5 = gbs "c" 100 95 1 0 0 0.5 ∧
    bjerksund_stensland_2002 100 95 1 0 0 0.5 = gbs "c" 100 95 1 0 0 0.5 :=
  claim_C2_american_call_delegates 100 95 1 0 0 0.5
    ((validInputs_iff _ _ _ _ _ _ _).mpr (by norm_num)) le_rfl

/-! ## Put-call duality of the European kernel -/

lemma gbs_d1_swap {fs x t v : ℝ} (b : ℝ) (hfs : 0 < fs) (hx : 0 < x)
    (ht : 0 < t) (hv : 0 < v) :
    gbs_d1 x fs t (-b) v = -gbs_d2 fs x t b v := by
  unfold gbs_d2 gbs_d1
  have hst : (0 : ℝ) < Real.sqrt t := Real.sqrt_pos.mpr ht
  have hs2 : Real.sqrt t * Real.sqrt t = t := Real.mul_self_sqrt ht.le
  rw [Real.log_div hx.ne' hfs.ne', Real.log_div hfs.ne' hx.ne']
  field_simp
  ring_nf
  rw [Real.sq_sqrt ht.le]
  ring

lemma gbs_d2_swap {fs x t v : ℝ} (b : ℝ) (hfs : 0 < fs) (hx : 0 < x)
    (ht : 0 < t) (hv : 0 < v) :
    gbs_d2 x fs t (-b) v = -gbs_d1 fs x t b v := by
  have h1 := gbs_d1_swap b hfs hx ht hv
  unfold gbs_d2 at *
  rw [h1]
  ring

/-- Put-call duality: the European call at the transformed arguments
`(x, fs, t, r - b, -b, v)` has exactly the value of the European put at
`(fs, x, t, r, b, v)`. -/
lemma gbsRes_put_call_duality {fs x t r b v : ℝ} (hfs : 0 < fs) (hx : 0 < x)
    (ht : 0 < t) (hv : 0 < v) :
    (gbsRes "c" x fs t (r - b) (-b) v).value = (gbsRes "p" fs x t r b v).value := by
  simp only [gbsRes]
  rw [if_pos trivial, if_neg (show ¬("p" : String) = "c" by decide)]
  rw [gbs_d1_swap b hfs hx ht hv, gbs_d2_swap b hfs hx ht hv]
  have he1 : (-b - (r - b)) * t = -r * t := by ring
  have he2 : -(r - b) * t = (b - r) * t := by ring
  rw [he1, he2]

/-! ## Claim C3 -/

/-- Claim C3: whenever the American pricer `_american_option` and the
European kernel `_gbs` both return on the same arguments, the American
value is at least the European value.  For calls this is the
`max(computed, european)` floor; for puts it holds through the put-call
duality transform. -/
theorem claim_C3_american_ge_european (ty : String) (fs x t r b v : ℝ)
    (aRes eRes : ValRes)
    (hA : american_option ty fs x t r b v = .ok aRes)
    (hE : gbs ty fs x t r b v = .ok eRes) :
    eRes.value ≤ aRes.value := by
  have hvalid : ValidInputs ty fs x t r b v :=
    (gbs_isOk_iff ty fs x t r b v).mp ⟨eRes, hE⟩
  have heq : eRes = gbsRes ty fs x t r b v := by
    rw [gbs_eq_of_valid hvalid] at hE
    injection hE with h2
    exact h2.symm
  rcases hvalid.1 with hc | hp
  · subst hc
    rw [american_call_eq hvalid] at hA
    obtain ⟨out, hgout, hle, -, -, -, -, -⟩ := bs2002_ok_elim hA
    rw [gbs_eq_of_valid hvalid] at hgout
    injection hgout with h2
    subst h2
    rw [heq]
    exact hle
  · subst hp
    rw [american_put_eq hvalid] at hA
    obtain ⟨out, hgout, hle, -, -, -, -, -⟩ := bs2002_ok_elim hA
    have hvC : ValidInputs "c" x fs t (r - b) (-b) v :=
      (gbs_isOk_iff _ _ _ _ _ _ _).mp ⟨out, hgout⟩
    rw [gbs_eq_of_valid hvC] at hgout
    injection hgout with h2
    subst h2
    have hx0 : (0 : ℝ) < x :=
      lt_of_lt_of_le (by norm_num [GBS_Limits.MIN_X]) hvalid.2.1.1
    have hfs0 : (0 : ℝ) < fs :=
      lt_of_lt_of_le (by norm_num [GBS_Limits.MIN_FS]) hvalid.2.2.1.1
    have ht0 : (0 : ℝ) < t :=
      lt_of_lt_of_le (by norm_num [GBS_Limits.MIN_T]) hvalid.2.2.2.1.1
    have hv0 : (0 : ℝ) < v :=
      lt_of_lt_of_le (by norm_num [GBS_Limits.MIN_V]) hvalid.2.2.2.2.2.2.1
    have hdual := gbsRes_put_call_duality (r := r) (b := b) hfs0 hx0 ht0 hv0
    rw [heq, ← hdual]
    exact hle

/-- Witness for C3: an American put at `(100, 100, 1, r = 0, b = 0, 0.5)`
prices at least the European put; with `r = b = 0` the duality sends it to
the European call at the same numbers. -/
theorem claim_C3_witness :
    (gbsRes "p" 100 100 1 0 0 0.5).value ≤ (gbsRes "c" 100 100 1 0 0 0.5).value := by
  have hvalid : ValidInputs "p" (100 : ℝ) 100 1 0 0 0.5 :=
    (validInputs_iff _ _ _ _ _ _ _).mpr (by norm_num)
  have hvC : ValidInputs "c" (100 : ℝ) 100 1 (0 - 0) (-0) 0.5 :=
    (validInputs_iff _ _ _ _ _ _ _).mpr (by norm_num)
  have hbs : bjerksund_stensland_2002 (100 : ℝ) 100 1 (0 - 0) (-0) 0.5 =
      .ok (gbsRes "c" 100 100 1 (0 - 0) (-0) 0.5) := by
    unfold bjerksund_stensland_2002
    rw [gbs_eq_of_valid hvC]
    dsimp only
    rw [if_pos (by norm_num : (-0 : ℝ) ≥ 0 - 0)]
  have hA : american_option "p" (100 : ℝ) 100 1 0 0 0.5 =
      .ok (gbsRes "c" 100 100 1 (0 - 0) (-0) 0.5) := by
    rw [american_put_eq hvalid]
    exact hbs
  have hE : gbs "p" (100 : ℝ) 100 1 0 0 0.5 =
      .ok (gbsRes "p" 100 100 1 0 0 0.5) := gbs_eq_of_valid hvalid
  have h := claim_C3_american_ge_european "p" 100 100 1 0 0 0.5 _ _ hA hE
  simpa using h

/-! ## Claim C4 -/

/-- Claim C4 (amended): for American puts the input validation is
performed on the ORIGINAL arguments first (inside `_american_option`);
only then is the put-call transform applied and the call kernel invoked,
which re-validates the transformed arguments.  When the original
arguments fail validation, the error raised is the one naming the
original argument. -/
theorem claim_C4_put_validation_order (fs x t r b v : ℝ) :
    (gbs_test_inputs "p" fs x t r b v = .ok () →
      american_option "p" fs x t r b v =
        bjerksund_stensland_2002 x fs t (r - b) (-b) v) ∧
    (∀ e, gbs_test_inputs "p" fs x t r b v = .error e →
      american_option "p" fs x t r b v = .error e) := by
  constructor
  · intro hok
    exact american_put_eq ((gbs_test_inputs_eq_ok_iff _ _ _ _ _ _ _).mp hok)
  · intro e he
    unfold american_option
    rw [he]

/-- Claim C4 is false as stated at this input: with
`("p", fs=100, x=100, t=1, r=1.5, b=0.6, v=0.5)` the transformed argument
vector `(x, fs, t, r-b=0.9, -b=-0.6, v)` is entirely inside the validated
domain (and the call pricer accepts it), yet `_american_option` raises the
`GBS_InputError` for the ORIGINAL rate `r = 1.5`: the domain checks are
performed on the original arguments, not on the transformed ones. -/
theorem claim_C4_counterexample :
    american_option "p" 100 100 1 1.5 0.6 0.5 =
      .error (.inputError "r" 1.5 (-1) 1) ∧
    ValidInputs "c" 100 100 1 (1.5 - 0.6) (-0.6) 0.5 ∧
    (∃ out, bjerksund_stensland_2002 100 100 1 (1.5 - 0.6) (-0.6) 0.5 = .ok out) := by
  have hvC : ValidInputs "c" (100 : ℝ) 100 1 (1.5 - 0.6) (-0.6) 0.5 :=
    (validInputs_iff _ _ _ _ _ _ _).mpr (by norm_num)
  refine ⟨?_, hvC, (bs2002_isOk_iff _ _ _ _ _ _).mpr hvC⟩
  unfold american_option gbs_test_inputs
  rw [(test_option_type_eq_ok_iff "p").mpr (Or.inr rfl)]
  norm_num [GBS_Limits.MIN_X, GBS_Limits.MAX_X, GBS_Limits.MIN_FS,
    GBS_Limits.MAX_FS, GBS_Limits.MIN_T, GBS_Limits.MAX_T,
    GBS_Limits.MIN_b, GBS_Limits.MAX_b, GBS_Limits.MIN_r,
    GBS_Limits.MAX_r, GBS_Limits.MAX32]

/-! ## The standard normal CDF: total mass and symmetry -/

lemma normalPdf_eq_gaussian (z : ℝ) :
    normalPdf z = ProbabilityTheory.gaussianPDFReal 0 1 z := by
  unfold normalPdf ProbabilityTheory.gaussianPDFReal
  norm_num
  rw [div_eq_mul_inv, mul_comm, mul_inv]
  ring

lemma integrable_normalPdf : Integrable normalPdf := by
  have h : normalPdf = ProbabilityTheory.gaussianPDFReal 0 1 :=
    funext normalPdf_eq_gaussian
  rw [h]
  exact ProbabilityTheory.integrable_gaussianPDFReal 0 1

lemma integral_normalPdf : (∫ z, normalPdf z) = 1 := by
  have h : normalPdf = ProbabilityTheory.gaussianPDFReal 0 1 :=
    funext normalPdf_eq_gaussian
  rw [h]
  exact ProbabilityTheory.integral_gaussianPDFReal_eq_one 0 one_ne_zero

lemma normalPdf_neg (z : ℝ) : normalPdf (-z) = normalPdf z := by
  unfold normalPdf
  rw [neg_sq]

/-- Symmetry of the standard normal distribution:
`Phi(z) + Phi(-z) = 1`. -/
lemma normalCdf_add_neg (z : ℝ) : normalCdf z + normalCdf (-z) = 1 := by
  unfold normalCdf
  have h1 : (∫ u in Set.Iic (-z), normalPdf u) = ∫ u in Set.Ioi z, normalPdf u := by
    calc (∫ u in Set.Iic (-z), normalPdf u)
        = ∫ u in Set.Iic (-z), normalPdf (-u) :=
          setIntegral_congr_fun measurableSet_Iic fun u _ => (normalPdf_neg u).symm
      _ = ∫ u in Set.Ioi (-(-z)), normalPdf u := integral_comp_neg_Iic (-z) normalPdf
      _ = ∫ u in Set.Ioi z, normalPdf u := by rw [neg_neg]
  rw [h1, intervalIntegral.integral_Iic_add_Ioi integrable_normalPdf.integrableOn
    integrable_normalPdf.integrableOn]
  exact integral_normalPdf

/-! ## Claim C7 -/

/-- Claim C7: for every valid input the European kernel returns, and its
value is the Black-Scholes formula of the specification, with
`d1 = (ln(fs/x) + (b + v^2/2) t) / (v sqrt t)` and `d2 = d1 - v sqrt t`:
the call value is `fs e^((b-r)t) Phi(d1) - x e^(-rt) Phi(d2)` and the put
value the symmetric formula at `-d1, -d2`. -/
theorem claim_C7_gbs_value_formula (ty : String) (fs x t r b v : ℝ)
    (hvalid : ValidInputs ty fs x t r b v) :
    ∃ out, gbs ty fs x t r b v = .ok out ∧
      (ty = "c" → out.value =
        fs * Real.exp ((b - r) * t) *
            normalCdf ((Real.log (fs / x) + (b + v ^ 2 / 2) * t) / (v * Real.sqrt t)) -
          x * Real.exp (-r * t) *
            normalCdf ((Real.log (fs / x) + (b + v ^ 2 / 2) * t) / (v * Real.sqrt t) -
              v * Real.sqrt t)) ∧
      (ty = "p" → out.value =
        x * Real.exp (-r * t) *
            normalCdf (-((Real.log (fs / x) + (b + v ^ 2 / 2) * t) / (v * Real.sqrt t) -
              v * Real.sqrt t)) -
          fs * Real.exp ((b - r) * t) *
            normalCdf (-((Real.log (fs / x) + (b + v ^ 2 / 2) * t) / (v * Real.sqrt t)))) := by
  have hvv : v * v / 2 = v ^ 2 / 2 := by ring
  refine ⟨gbsRes ty fs x t r b v, gbs_eq_of_valid hvalid, ?_, ?_⟩
  · rintro rfl
    simp only [gbsRes, gbs_d1, gbs_d2]
    rw [if_pos trivial, hvv]
  · rintro rfl
    simp only [gbsRes, gbs_d1, gbs_d2]
    rw [if_neg (show ¬("p" : String) = "c" by decide), hvv]

/-- Witness for C7 at a valid call and a valid put input. -/
theorem claim_C7_witness :
    (∃ out, gbs "c" 100 95 1 0 0 0.5 = .ok out ∧
      ("c" = "c" → out.value =
        100 * Real.exp ((0 - 0) * 1) *
            normalCdf ((Real.log (100 / 95) + (0 + 0.5 ^ 2 / 2) * 1) / (0.5 * Real.sqrt 1)) -
          95 * Real.exp (-0 * 1) *
            normalCdf ((Real.log (100 / 95) + (0 + 0.5 ^ 2 / 2) * 1) / (0.5 * Real.sqrt 1) -
              0.5 * Real.sqrt 1)) ∧
      ("c" = "p" → out.value =
        95 * Real.exp (-0 * 1) *
            normalCdf (-((Real.log (100 / 95) + (0 + 0.5 ^ 2 / 2) * 1) / (0.5 * Real.sqrt 1) -
              0.5 * Real.sqrt 1)) -
          100 * Real.exp ((0 - 0) * 1) *
            normalCdf (-((Real.log (100 / 95) + (0 + 0.5 ^ 2 / 2) * 1) / (0.5 * Real.sqrt 1))))) :=
  claim_C7_gbs_value_formula "c" 100 95 1 0 0 0.5
    ((validInputs_iff _ _ _ _ _ _ _).mpr (by norm_num))

/-! ## Claim C8 -/

/-- Claim C8: put-call parity holds for the European kernel exactly (as an
identity of the embedded real-valued formulas, via
`Phi(d) + Phi(-d) = 1`): the call value minus the put value equals
`fs e^((b-r)t) - x e^(-rt)`. -/
theorem claim_C8_put_call_parity (fs x t r b v : ℝ)
    (hvalid : ValidInputs "c" fs x t r b v) :
    ∃ cRes pRes, gbs "c" fs x t r b v = .ok cRes ∧
      gbs "p" fs x t r b v = .ok pRes ∧
      cRes.value - pRes.value =
        fs * Real.exp ((b - r) * t) - x * Real.exp (-r * t) := by
  have hp : ValidInputs "p" fs x t r b v := ⟨Or.inr rfl, hvalid.2⟩
  refine ⟨_, _, gbs_eq_of_valid hvalid, gbs_eq_of_valid hp, ?_⟩
  simp only [gbsRes]
  rw [if_pos trivial, if_neg (show ¬("p" : String) = "c" by decide)]
  have h1 := normalCdf_add_neg (gbs_d1 fs x t b v)
  have h2 := normalCdf_add_neg (gbs_d2 fs x t b v)
  linear_combination (fs * Real.exp ((b - r) * t)) * h1 -
    (x * Real.exp (-r * t)) * h2

/-- Witness for C8 at `(100, 95, 1, 0.05, 0.05, 0.25)`. -/
theorem claim_C8_witness :
    ∃ cRes pRes, gbs "c" 100 95 1 0.05 0.05 0.25 = .ok cRes ∧
      gbs "p" 100 95 1 0.05 0.05 0.25 = .ok pRes ∧
      cRes.value - pRes.value =
        100 * Real.exp ((0.05 - 0.05) * 1) - 95 * Real.exp (-0.05 * 1) :=
  claim_C8_put_call_parity 100 95 1 0.05 0.05 0.25
    ((validInputs_iff _ _ _ _ _ _ _).mpr (by norm_num))

/-! ## Claim C9 -/

/-- Claim C9: with averaging start time `t_a = t` (and `t` nonnegative, so
that the `t_a` check passes), `asian_76` returns exactly the six-tuple of
`black_76` on the same arguments; and `asian_76` raises a
`GBS_InputError` whenever `t_a` lies outside `[0, t]`. -/
theorem claim_C9_asian_degenerates_to_black76 (ty : String)
    (fs x t t_a r v : ℝ) :
    (0 ≤ t → asian_76 ty fs x t t r v = black_76 ty fs x t r v) ∧
    (t_a < 0 ∨ t_a > t →
      asian_76 ty fs x t t_a r v = .error (.inputError "TA" t_a 0 t)) := by
  constructor
  · intro ht
    have hcond : ¬(t < GBS_Limits.MIN_TA ∨ t > t) := by
      unfold GBS_Limits.MIN_TA
      push_neg
      exact ⟨ht, le_refl t⟩
    unfold asian_76 black_76
    rw [if_neg hcond, if_pos rfl]
  · intro hout
    have hcond : t_a < GBS_Limits.MIN_TA ∨ t_a > t := by
      unfold GBS_Limits.MIN_TA
      exact hout
    unfold asian_76
    rw [if_pos hcond]
    simp [GBS_Limits.MIN_TA]

/-- Witness for C9: at `t = 1` the Asian pricer with `t_a = 1` equals
Black-76, and with `t_a = 2 > t` it raises the averaging-time error. -/
theorem claim_C9_witness :
    asian_76 "c" 100 95 1 1 0.05 0.25 = black_76 "c" 100 95 1 0.05 0.25 ∧
    asian_76 "c" 100 95 1 2 0.05 0.25 = .error (.inputError "TA" 2 0 1) := by
  have h := claim_C9_asian_degenerates_to_black76 "c" 100 95 1 2 0.05 0.25
  exact ⟨h.1 (by norm_num), h.2 (by norm_num)⟩

/-! ## Claim C10 -/

/-- Claim C10: whenever `kirks_76` returns, its value is `(f2 + x)` times
the value of `_gbs` at the synthetic spot `f1/(f2+x)`, strike `1.0`,
cost of carry `0` and the Kirk combined volatility, and all five reported
greeks are exactly `0`. -/
theorem claim_C10_kirks_value_zero_greeks (ty : String)
    (f1 f2 x t r v1 v2 corr : ℝ) (out : ValRes)
    (hout : kirks_76 ty f1 f2 x t r v1 v2 corr = .ok out) :
    ∃ g, gbs ty (f1 / (f2 + x)) 1.0 t r 0
        (Real.sqrt (v1 ^ 2 + (v2 * (f2 / (f2 + x))) ^ 2 -
          2 * corr * v1 * v2 * (f2 / (f2 + x)))) = .ok g ∧
      out.value = g.value * (f2 + x) ∧ out.delta = 0 ∧ out.gamma = 0 ∧
      out.theta = 0 ∧ out.vega = 0 ∧ out.rho = 0 := by
  simp only [kirks_76] at hout
  cases hg : gbs ty (f1 / (f2 + x)) 1.0 t r 0
      (Real.sqrt (v1 ^ 2 + (v2 * (f2 / (f2 + x))) ^ 2 -
        2 * corr * v1 * v2 * (f2 / (f2 + x)))) with
  | error e =>
    rw [hg] at hout
    simp at hout
  | ok g =>
    rw [hg] at hout
    injection hout with h2
    subst h2
    exact ⟨g, rfl, rfl, rfl, rfl, rfl, rfl, rfl⟩

/-- Witness for C10 at
`("c", f1=100, f2=50, x=50, t=1, r=0, v1=0.3, v2=0.2, corr=0)`, where the
combined volatility is `sqrt 0.1`, inside the validated domain. -/
theorem claim_C10_witness :
    ∃ out g, kirks_76 "c" 100 50 50 1 0 0.3 0.2 0 = .ok out ∧
      gbs "c" ((100 : ℝ) / (50 + 50)) 1.0 1 0 0
        (Real.sqrt ((0.3 : ℝ) ^ 2 + (0.2 * (50 / (50 + 50))) ^ 2 -
          2 * 0 * 0.3 * 0.2 * (50 / (50 + 50)))) = .ok g ∧
      out.value = g.value * (50 + 50) ∧ out.delta = 0 ∧ out.gamma = 0 ∧
      out.theta = 0 ∧ out.vega = 0 ∧ out.rho = 0 := by
  have hlo : (0.005 : ℝ) ≤ Real.sqrt ((0.3 : ℝ) ^ 2 + (0.2 * (50 / (50 + 50))) ^ 2 -
      2 * 0 * 0.3 * 0.2 * (50 / (50 + 50))) := by
    have h1 : (0.005 : ℝ) = Real.sqrt 0.000025 := by
      rw [show (0.000025 : ℝ) = 0.005 ^ 2 by norm_num,
        Real.sqrt_sq (by norm_num : (0 : ℝ) ≤ 0.005)]
    rw [h1]
    apply Real.sqrt_le_sqrt
    norm_num
  have hhi : Real.sqrt ((0.3 : ℝ) ^ 2 + (0.2 * (50 / (50 + 50))) ^ 2 -
      2 * 0 * 0.3 * 0.2 * (50 / (50 + 50))) ≤ 1 := by
    calc Real.sqrt ((0.3 : ℝ) ^ 2 + (0.2 * (50 / (50 + 50))) ^ 2 -
        2 * 0 * 0.3 * 0.2 * (50 / (50 + 50))) ≤ Real.sqrt 1 := by
          apply Real.sqrt_le_sqrt
          norm_num
      _ = 1 := Real.sqrt_one
  have hvalid : ValidInputs "c" ((100 : ℝ) / (50 + 50)) 1.0 1 0 0
      (Real.sqrt ((0.3 : ℝ) ^ 2 + (0.2 * (50 / (50 + 50))) ^ 2 -
        2 * 0 * 0.3 * 0.2 * (50 / (50 + 50)))) :=
    (validInputs_iff _ _ _ _ _ _ _).mpr
      ⟨Or.inl rfl, by norm_num, by norm_num, by norm_num, by norm_num,
        by norm_num, hlo, hhi⟩
  have hkirks : kirks_76 "c" 100 50 50 1 0 0.3 0.2 0 =
      .ok { value := (gbsRes "c" ((100 : ℝ) / (50 + 50)) 1.0 1 0 0
              (Real.sqrt ((0.3 : ℝ) ^ 2 + (0.2 * (50 / (50 + 50))) ^ 2 -
                2 * 0 * 0.3 * 0.2 * (50 / (50 + 50))))).value * (50 + 50),
            delta := 0, gamma := 0, theta := 0, vega := 0, rho := 0 } := by
    simp only [kirks_76]
    rw [gbs_eq_of_valid hvalid]
  obtain ⟨g, hg, hval, hd, hga, hth, hve, hrh⟩ :=
    claim_C10_kirks_value_zero_greeks "c" 100 50 50 1 0 0.3 0.2 0 _ hkirks
  exact ⟨_, g, hkirks, hg, hval, hd, hga, hth, hve, hrh⟩

/-! ## Solver helper lemmas -/

/-- A trivial total pricer, used to instantiate the solver claims at a
concrete `val_fn`. -/
def constPricer : Pricer :=
  fun _ _ _ _ _ _ _ =>
    .ok { value := 1, delta := 1, gamma := 1, theta := 1, vega := 1, rho := 1 }

open GBS_Limits in
/-- Invariant of the bisection loop: when every pricer evaluation
succeeds, the loop returns `(v_mid, cp_mid, fuel_left)` where `cp_mid` is
the pricer value at `v_mid`, and it stops with fuel remaining only when
the residual has reached `precision` (the loop guard `diff > precision`
has failed). -/
lemma bisection_loop_spec (val_fn : Pricer) (ty : String)
    (fs x t r b cp precision : ℝ)
    (hval : ∀ vv, ∃ out, val_fn ty fs x t r b vv = .ok out) :
    ∀ (fuel : ℕ) (v_low v_high v_mid cp_mid : ℝ),
      (∃ out, val_fn ty fs x t r b v_mid = .ok out ∧ out.value = cp_mid) →
      ∃ vf cpf fl,
        bisection_loop val_fn ty fs x t r b cp precision fuel
          v_low v_high v_mid cp_mid = .ok (vf, cpf, fl) ∧
        (∃ out, val_fn ty fs x t r b vf = .ok out ∧ out.value = cpf) ∧
        (0 < fl → |cp - cpf| ≤ precision) := by
  intro fuel
  induction fuel with
  | zero =>
    intro v_low v_high v_mid cp_mid hinv
    exact ⟨v_mid, cp_mid, 0, rfl, hinv, fun hc => absurd hc (lt_irrefl 0)⟩
  | succ n ih =>
    intro v_low v_high v_mid cp_mid hinv
    by_cases hcond : |cp - cp_mid| > precision
    · simp only [bisection_loop]
      rw [if_pos hcond]
      obtain ⟨lowRes, hlow⟩ := hval (if cp_mid < cp then v_mid else v_low)
      rw [hlow]
      dsimp only
      obtain ⟨highRes, hhigh⟩ := hval (if cp_mid < cp then v_high else v_mid)
      rw [hhigh]
      dsimp only
      obtain ⟨midRes, hmid⟩ := hval (min MAX_V (max MIN_V
        ((if cp_mid < cp then v_mid else v_low) + (cp - lowRes.value) *
          ((if cp_mid < cp then v_high else v_mid) -
            (if cp_mid < cp then v_mid else v_low)) /
          (highRes.value - lowRes.value))))
      rw [hmid]
      dsimp only
      exact ih _ _ _ _ ⟨midRes, hmid, rfl⟩
    · simp only [bisection_loop]
      rw [if_neg hcond]
      exact ⟨v_mid, cp_mid, n + 1, rfl, hinv, fun _ => not_lt.mp hcond⟩

/-! ## Claim C5 -/

open GBS_Limits in
/-- Claim C5 (amended): when the option type is valid and every pricer
evaluation succeeds, every call of `_bisection_implied_vol` either
returns a volatility whose repriced value is within `precision` of the
target, or raises a `GBS_CalculationError` reporting the best guess, the
final residual and the required precision, with the final residual still
at least `precision`; in the error case, either the residual equals
`precision` exactly (the loop guard is strict), or the loop consumed all
`max_steps` iterations (returned with zero fuel). -/
theorem claim_C5_bisection_outcomes (val_fn : Pricer) (ty : String)
    (fs x t r b cp precision : ℝ) (max_steps : ℕ)
    (hty : ty = "c" ∨ ty = "p")
    (hval : ∀ vv, ∃ out, val_fn ty fs x t r b vv = .ok out) :
    (∃ vres out,
      bisection_implied_vol val_fn ty fs x t r b cp precision max_steps =
        .ok vres ∧
      val_fn ty fs x t r b vres = .ok out ∧ |cp - out.value| < precision) ∨
    (∃ vres out,
      bisection_implied_vol val_fn ty fs x t r b cp precision max_steps =
        .error (.calculationError vres (|cp - out.value|) precision) ∧
      val_fn ty fs x t r b vres = .ok out ∧ precision ≤ |cp - out.value| ∧
      (precision = |cp - out.value| ∨
        ∃ vest out0, approx_implied_vol ty fs x t r b cp = .ok vest ∧
          val_fn ty fs x t r b (bisection_v_mid vest) = .ok out0 ∧
          bisection_loop val_fn ty fs x t r b cp precision max_steps
            (bisection_v_low vest) (bisection_v_high vest)
            (bisection_v_mid vest) out0.value = .ok (vres, out.value, 0))) := by
  have hto := (test_option_type_eq_ok_iff ty).mpr hty
  have hest : ∃ vest, approx_implied_vol ty fs x t r b cp = .ok vest := by
    unfold approx_implied_vol
    rw [hto]
    exact ⟨_, rfl⟩
  obtain ⟨vest, hest⟩ := hest
  obtain ⟨midRes, hmid⟩ := hval (bisection_v_mid vest)
  obtain ⟨vf, cpf, fl, hloop, ⟨outf, houtf, hcpf⟩, hfl⟩ :=
    bisection_loop_spec val_fn ty fs x t r b cp precision hval max_steps
      (bisection_v_low vest) (bisection_v_high vest) (bisection_v_mid vest)
      midRes.value ⟨midRes, hmid, rfl⟩
  have hres : bisection_implied_vol val_fn ty fs x t r b cp precision max_steps =
      (if |cp - cpf| < precision then .ok vf
       else .error (.calculationError vf (|cp - cpf|) precision)) := by
    simp only [bisection_implied_vol]
    rw [hest]
    dsimp only
    rw [hmid]
    dsimp only
    rw [hloop]
  by_cases hfin : |cp - cpf| < precision
  · left
    refine ⟨vf, outf, ?_, houtf, ?_⟩
    · rw [hres, if_pos hfin]
    · rw [hcpf]
      exact hfin
  · right
    refine ⟨vf, outf, ?_, houtf, ?_, ?_⟩
    · rw [hres, if_neg hfin, hcpf]
    · rw [hcpf]
      exact not_lt.mp hfin
    · by_cases hexact : precision = |cp - cpf|
      · left
        rw [hcpf]
        exact hexact
      · right
        have hfl0 : fl = 0 := by
          by_contra hne
          have h1 := hfl (Nat.pos_of_ne_zero hne)
          have h2 := not_lt.mp hfin
          exact hexact (le_antisymm h2 h1)
        refine ⟨vest, midRes, hest, hmid, ?_⟩
        rw [hcpf, ← hfl0]
        exact hloop

/-- Witness for C5, with the constant pricer (always in precision after
zero iterations is impossible here, so the theorem decides which side
holds at this input through its proof). -/
theorem claim_C5_witness :
    (∃ vres out,
      bisection_implied_vol constPricer "c" 100 100 1 0 0 5 0.00001 100 =
        .ok vres ∧
      constPricer "c" 100 100 1 0 0 vres = .ok out ∧
      |(5 : ℝ) - out.value| < 0.00001) ∨
    (∃ vres out,
      bisection_implied_vol constPricer "c" 100 100 1 0 0 5 0.00001 100 =
        .error (.calculationError vres (|(5 : ℝ) - out.value|) 0.00001) ∧
      constPricer "c" 100 100 1 0 0 vres = .ok out ∧
      (0.00001 : ℝ) ≤ |(5 : ℝ) - out.value| ∧
      ((0.00001 : ℝ) = |(5 : ℝ) - out.value| ∨
        ∃ vest out0, approx_implied_vol "c" 100 100 1 0 0 5 = .ok vest ∧
          constPricer "c" 100 100 1 0 0 (bisection_v_mid vest) = .ok out0 ∧
          bisection_loop constPricer "c" 100 100 1 0 0 5 0.00001 100
            (bisection_v_low vest) (bisection_v_high vest)
            (bisection_v_mid vest) out0.value = .ok (vres, out.value, 0))) :=
  claim_C5_bisection_outcomes constPricer "c" 100 100 1 0 0 5 0.00001 100
    (Or.inl rfl) (fun _ => ⟨_, rfl⟩)

/-- Claim C5 is false as stated at this input: called with the invalid
option type "x", `_bisection_implied_vol` raises a `GBS_InputError` (from
the seed `_approx_implied_vol`), so it neither returns a volatility
within precision nor raises a `GBS_CalculationError`. -/
theorem claim_C5_counterexample :
    bisection_implied_vol constPricer "x" 100 100 1 0 0 5 0.00001 100 =
      .error (.invalidOptionType "x") ∧
    ¬((∃ vres out,
        bisection_implied_vol constPricer "x" 100 100 1 0 0 5 0.00001 100 =
          .ok vres ∧
        constPricer "x" 100 100 1 0 0 vres = .ok out ∧
        |(5 : ℝ) - out.value| < 0.00001) ∨
      (∃ g d p,
        bisection_implied_vol constPricer "x" 100 100 1 0 0 5 0.00001 100 =
          .error (.calculationError g d p))) := by
  have hto : test_option_type "x" = .error (.invalidOptionType "x") := by
    unfold test_option_type
    rw [if_pos (by decide)]
  have happ : approx_implied_vol "x" (100 : ℝ) 100 1 0 0 5 =
      .error (.invalidOptionType "x") := by
    unfold approx_implied_vol
    rw [hto]
  have h : bisection_implied_vol constPricer "x" 100 100 1 0 0 5 0.00001 100 =
      .error (.invalidOptionType "x") := by
    unfold bisection_implied_vol
    rw [happ]
  refine ⟨h, ?_⟩
  rintro (⟨vres, out, h1, -, -⟩ | ⟨g, d, p, h1⟩) <;> rw [h] at h1 <;> simp at h1

/-! ## Claim C6 -/

open GBS_Limits in
/-- Invariant of the Newton loop: it always returns `(v, value)`; when the
final residual beats `precision`, the returned `v` carries the pricer
value `value` and lies inside `[MIN_V, MAX_V]` (an out-of-bounds update
exits only with a stale residual that is at least `precision`). -/
lemma newton_loop_spec (val_fn : Pricer) (ty : String)
    (fs x t r b cp precision : ℝ)
    (hval : ∀ vv, ∃ out, val_fn ty fs x t r b vv = .ok out) :
    ∀ (fuel : ℕ) (v value vega min_diff : ℝ),
      MIN_V ≤ v → v ≤ MAX_V →
      (∃ out, val_fn ty fs x t r b v = .ok out ∧ out.value = value) →
      ∃ vf valuef,
        newton_loop val_fn ty fs x t r b cp precision fuel
          v value vega min_diff = .ok (vf, valuef) ∧
        (|cp - valuef| < precision →
          ((∃ out, val_fn ty fs x t r b vf = .ok out ∧ out.value = valuef) ∧
            MIN_V ≤ vf ∧ vf ≤ MAX_V)) := by
  intro fuel
  induction fuel with
  | zero =>
    intro v value vega min_diff h1 h2 hinv
    exact ⟨v, value, rfl, fun _ => ⟨hinv, h1, h2⟩⟩
  | succ n ih =>
    intro v value vega min_diff h1 h2 hinv
    by_cases hcond : precision ≤ |cp - value| ∧ |cp - value| ≤ min_diff
    · simp only [newton_loop]
      rw [if_pos hcond]
      by_cases hbound : v - (value - cp) / vega > MAX_V ∨
          v - (value - cp) / vega < MIN_V
      · rw [if_pos hbound]
        exact ⟨_, value, rfl, fun hlt => absurd hlt (not_lt.mpr hcond.1)⟩
      · rw [if_neg hbound]
        obtain ⟨res, hres⟩ := hval (v - (value - cp) / vega)
        rw [hres]
        dsimp only
        push_neg at hbound
        exact ih _ _ _ _ hbound.2 hbound.1 ⟨res, hres, rfl⟩
    · simp only [newton_loop]
      rw [if_neg hcond]
      exact ⟨v, value, rfl, fun _ => ⟨hinv, h1, h2⟩⟩

open GBS_Limits in
/-- Claim C6: when every pricer evaluation succeeds, the Newton solver
either returns its own final iterate `v` — which then lies in
`[MIN_V, MAX_V]` and reprices within `precision` of the target — or
returns exactly the result of the bisection solver invoked with the same
arguments (this includes the out-of-bounds-update and loop-exhaustion
paths, and also an invalid option type, where both raise the same
`GBS_InputError`). -/
theorem claim_C6_newton_dichotomy (val_fn : Pricer) (ty : String)
    (x fs t b r cp precision : ℝ) (max_steps : ℕ)
    (hval : ∀ vv, ∃ out, val_fn ty fs x t r b vv = .ok out) :
    (∃ vf out,
      newton_implied_vol val_fn ty x fs t b r cp precision max_steps =
        .ok vf ∧
      val_fn ty fs x t r b vf = .ok out ∧ |cp - out.value| < precision ∧
      MIN_V ≤ vf ∧ vf ≤ MAX_V) ∨
    newton_implied_vol val_fn ty x fs t b r cp precision max_steps =
      bisection_implied_vol val_fn ty fs x t r b cp precision max_steps := by
  by_cases hty : ty = "c" ∨ ty = "p"
  · have hto := (test_option_type_eq_ok_iff ty).mpr hty
    have hest : ∃ vest, approx_implied_vol ty fs x t r b cp = .ok vest := by
      unfold approx_implied_vol
      rw [hto]
      exact ⟨_, rfl⟩
    obtain ⟨vest, hest⟩ := hest
    obtain ⟨res0, hres0⟩ := hval (min MAX_V (max MIN_V vest))
    have hVle : MIN_V ≤ MAX_V := by
      unfold MIN_V MAX_V
      norm_num
    have hlo : MIN_V ≤ min MAX_V (max MIN_V vest) :=
      le_min hVle (le_trans (le_refl _) (le_max_left _ _))
    have hhi : min MAX_V (max MIN_V vest) ≤ MAX_V := min_le_left _ _
    obtain ⟨vf, valuef, hloopeq, hctx⟩ :=
      newton_loop_spec val_fn ty fs x t r b cp precision hval max_steps
        (min MAX_V (max MIN_V vest)) res0.value res0.vega
        (|cp - res0.value|) hlo hhi ⟨res0, hres0, rfl⟩
    have hres : newton_implied_vol val_fn ty x fs t b r cp precision max_steps =
        (if |cp - valuef| < precision then .ok vf
         else bisection_implied_vol val_fn ty fs x t r b cp
           precision max_steps) := by
      simp only [newton_implied_vol]
      rw [hto]
      dsimp only
      rw [hest]
      dsimp only
      rw [hres0]
      dsimp only
      rw [hloopeq]
    by_cases hfin : |cp - valuef| < precision
    · obtain ⟨⟨out, hout, hov⟩, hlo2, hhi2⟩ := hctx hfin
      left
      refine ⟨vf, out, ?_, hout, ?_, hlo2, hhi2⟩
      · rw [hres, if_pos hfin]
      · rw [hov]
        exact hfin
    · right
      rw [hres, if_neg hfin]
  · right
    have hto : test_option_type ty = .error (.invalidOptionType ty) := by
      unfold test_option_type
      push_neg at hty
      rw [if_pos hty]
    have happ : approx_implied_vol ty fs x t r b cp =
        .error (.invalidOptionType ty) := by
      unfold approx_implied_vol
      rw [hto]
    have h1 : newton_implied_vol val_fn ty x fs t b r cp precision max_steps =
        .error (.invalidOptionType ty) := by
      simp only [newton_implied_vol]
      rw [hto]
    have h2 : bisection_implied_vol val_fn ty fs x t r b cp precision
        max_steps = .error (.invalidOptionType ty) := by
      simp only [bisection_implied_vol]
      rw [happ]
    rw [h1, h2]

open GBS_Limits in
/-- Witness for C6 with the constant pricer at a concrete input. -/
theorem claim_C6_witness :
    (∃ vf out,
      newton_implied_vol constPricer "c" 100 100 1 0 0 5 0.00001 100 =
        .ok vf ∧
      constPricer "c" 100 100 1 0 0 vf = .ok out ∧
      |(5 : ℝ) - out.value| < 0.00001 ∧ MIN_V ≤ vf ∧ vf ≤ MAX_V) ∨
    newton_implied_vol constPricer "c" 100 100 1 0 0 5 0.00001 100 =
      bisection_implied_vol constPricer "c" 100 100 1 0 0 5 0.00001 100 :=
  claim_C6_newton_dichotomy constPricer "c" 100 100 1 0 0 5 0.00001 100
    (fun _ => ⟨_, rfl⟩)

end

end Optlib
